import Mathlib

/-!
# EDGAR index crawler (`pkg/downloader/downloader.go`)

A shallow embedding of the downloader package: the endpoint generator
(`generateURLs`, `createRange`), the fetch-extract worker (`downloadFile`), the
fan-out coordinator (`downloadFiles`) and the merge stage (`MergeIndexFiles`,
`mergeFiles`).

Conventions of the embedding.

* A Go `string` is a Lean `String`. A Go `int` is a 64-bit integer: a value
  is an `Int` between `MinInt64` and `MaxInt64`, and every sum or difference
  the code computes is brought back into that range by `wrap64`.
* `make` refuses a slice whose length is negative or whose size exceeds the
  runtime's `maxAlloc`; a length it accepts is taken to be granted.
* A run-time panic is the value `none` of an `Option` result (or an explicit
  `crashed` flag where the state reached so far still matters).
* `time.Now()` is an explicit argument, and so are the answers of the file
  system and the network to a worker and the order in which goroutines run.
-/

namespace Downloader

/-! ## Endpoint generator -/

/-- The constant `EDGAR_PREFIX`. -/
def EDGAR_PREFIX : String := "https://www.sec.gov/Archives/edgar/full-index/"

/-- The function `strconv.Itoa`: the decimal digits of `i`, after a minus sign
when `i` is negative. -/
def Itoa (i : Int) : String :=
  if i < 0 then "-" ++ String.mk (Nat.toDigits 10 (-i).toNat)
  else String.mk (Nat.toDigits 10 i.toNat)

/-- The least value of a 64-bit `int`. -/
def MinInt64 : Int := -2 ^ 63

/-- The greatest value of a 64-bit `int`. -/
def MaxInt64 : Int := 2 ^ 63 - 1

/-- The result of 64-bit signed arithmetic: the representative of `x` modulo
`2 ^ 64` between `MinInt64` and `MaxInt64`. -/
def wrap64 (x : Int) : Int := (x + 2 ^ 63) % 2 ^ 64 - 2 ^ 63

/-- The constant `maxAlloc` of the Go runtime on 64-bit platforms: the most
bytes one allocation may ask for. -/
def maxAlloc : Int := 2 ^ 48

/-- The function `createRange`: `make([]int, max-min+1)` filled with
`min + i`, in 64-bit arithmetic. `make` panics (`none`) when the length is
negative or when its eight bytes per element exceed `maxAlloc`. -/
def createRange (min max : Int) : Option (List Int) :=
  let n := wrap64 (wrap64 (max - min) + 1)
  if n < 0 ∨ maxAlloc < 8 * n then none
  else some ((List.range n.toNat).map fun (i : Nat) => wrap64 (min + (i : Int)))

/-- The slice `quarters` of `generateURLs`. -/
def quarters : List String := ["QTR1", "QTR2", "QTR3", "QTR4"]

/-- The inner loop `for j := range quarters` of `generateURLs`, from index `j`
on, where `qs` holds `quarters[j:]`; the first branch is the `break`. -/
def quarterLoop (currentYear currentQuarter year : Int) :
    Nat → List String → List String → List String
  | _, [], endPoints => endPoints
  | j, q :: qs, endPoints =>
    if year = currentYear ∧ (j : Int) > wrap64 (currentQuarter - 1) then endPoints
    else
      quarterLoop currentYear currentQuarter year (j + 1) qs
        (endPoints ++ [EDGAR_PREFIX ++ Itoa year ++ "/" ++ q ++ "/master.zip"])

/-- The outer loop `for i := range years` of `generateURLs`. -/
def yearLoop (currentYear currentQuarter : Int) : List Int → List String → List String
  | [], endPoints => endPoints
  | y :: ys, endPoints =>
    yearLoop currentYear currentQuarter ys
      (quarterLoop currentYear currentQuarter y 0 quarters endPoints)

/-- The body of `generateURLs` after the two reads of the clock: the year
range, then the two nested loops. -/
def generateURLsAt (currentYear currentQuarter start stop : Int) : Option (List String) :=
  (createRange start stop).map fun years => yearLoop currentYear currentQuarter years []

/-- The function `math.RoundToEven` on an exactly represented value: the
nearest integer, ties to the even one. -/
def roundToEven (x : ℚ) : Int :=
  let f := Rat.floor x
  let r := x - f
  if r < 1 / 2 then f else if 1 / 2 < r then f + 1 else if f % 2 = 0 then f else f + 1

/-- The expression `int(math.RoundToEven(float64(month)/4 + 1))`. For a month
in 1..12 the quotient and the sum are multiples of a quarter below 4, which
`float64` holds exactly, so rational arithmetic computes the same value. -/
def currentQuarter (month : Nat) : Int := roundToEven ((month : ℚ) / 4 + 1)

/-- The two fields of `time.Now()` that `generateURLs` reads. -/
structure Time where
  Year : Int
  Month : Nat
  deriving DecidableEq, Repr

/-- The function `generateURLs`, with the clock as an argument. -/
def generateURLs (now : Time) (start stop : Int) : Option (List String) :=
  generateURLsAt now.Year (currentQuarter now.Month) start stop

/-! ### What the specification says the generator returns -/

/-- The years of the inclusive range, ascending. -/
def yearsOf (start stop : Int) : List Int :=
  (List.range (stop + 1 - start).toNat).map fun (k : Nat) => start + (k : Int)

/-- The locator of year `y` and quarter `q`:
prefix, decimal year, `/QTR`, the quarter number, `/master.zip`. -/
def locator (y : Int) (q : Nat) : String :=
  EDGAR_PREFIX ++ Itoa y ++ "/QTR" ++ Itoa q ++ "/master.zip"

/-- The quarters the specification requests for year `y`: all four, but only
those up to the current quarter when `y` is the current year. -/
def quartersOf (currentYear currentQuarter y : Int) : List Nat :=
  [1, 2, 3, 4].filter fun q => decide (y ≠ currentYear ∨ (q : Int) ≤ currentQuarter)

/-- The locators of a list of years, year by year and within a year quarter
ascending. -/
def locatorsOf (currentYear currentQuarter : Int) (years : List Int) : List String :=
  years.flatMap fun y => (quartersOf currentYear currentQuarter y).map (locator y)

/-- The list the specification describes: year ascending, then quarter
ascending. -/
def expectedURLs (currentYear currentQuarter start stop : Int) : List String :=
  locatorsOf currentYear currentQuarter (yearsOf start stop)

/-- The calendar quarter that contains month `m`: the ceiling of `m / 3`. -/
def calendarQuarter (m : Nat) : Int := ((m + 2) / 3 : Nat)

/-! ## Fetch-extract worker -/

/-- Splitting a character sequence at every occurrence of `sep`; the empty
sequence gives one empty piece. -/
def splitChars (sep : Char) : List Char → List (List Char)
  | [] => [[]]
  | c :: cs =>
    if c = sep then [] :: splitChars sep cs
    else (c :: (splitChars sep cs).headD []) :: (splitChars sep cs).tail

/-- The function `strings.Split` for a separator of one character. -/
def Split (s : String) (sep : Char) : List String :=
  (splitChars sep s.data).map String.mk

/-- The local file name of `downloadFile`:
`s[len(s)-3] + "-" + s[len(s)-2] + ".tsv"` for `s := strings.Split(url, "/")`.
With fewer than three pieces the index is out of range and the worker
panics (`none`). -/
def fileName (url : String) : Option String :=
  let s := Split url '/'
  if s.length < 3 then none
  else some (s.getD (s.length - 3) "" ++ "-" ++ s.getD (s.length - 2) "" ++ ".tsv")

/-- A non-nil Go `error`, by its message. -/
abbrev Error := String

/-- The struct `HTTPResponse`, the outcome a worker reports. -/
structure HTTPResponse where
  url : String
  status : String
  err : Option Error
  deriving DecidableEq, Repr

/-- What the worker reads of a `*http.Response`: the status line, the status
code, and what `ioutil.ReadAll(resp.Body)` returns. -/
structure Response where
  Status : String
  StatusCode : Int
  Body : Except Error String

/-- The result of `http.Get`: a response, or an error together with a
response that is nil except when a redirect check failed. -/
inductive GetResult where
  | ok (resp : Response)
  | failed (resp : Option Response) (err : Error)

/-- One `*zip.File`: its name and what `readZipFile` returns for it. -/
structure ZipFile where
  Name : String
  content : Except Error String

/-- What the environment answers to each step of one worker: `os.Create`,
`http.Get`, `zip.NewReader` on the body that was read, and the `k`-th call of
`out.Write`. -/
structure World where
  create : Option Error
  get : GetResult
  newReader : String → Except Error (List ZipFile)
  write : Nat → Option Error

/-- One run of a worker: the outcomes it put on the channel in order, whether
it ended in a panic, and the content of its local file (`none` when the file
was not created). -/
structure Run where
  sent : List HTTPResponse
  crashed : Bool
  file : Option String
  deriving DecidableEq, Repr

/-- The loop `for _, zipFile := range zipReader.File` of `downloadFile` and the
send that follows it; `k` counts the writes made so far and `out` is the
content of the local file. A write that fails is taken to add nothing. -/
def writeEntries (url status : String) (w : World) : List ZipFile → Nat → String → Run
  | [], _, out => ⟨[⟨url, status, none⟩], false, some out⟩
  | zf :: rest, k, out =>
    if zf.Name = "master.idx" then
      match zf.content with
      | .error e => ⟨[⟨url, status, some e⟩], false, some out⟩
      | .ok unzippedBytes =>
        match w.write k with
        | some e => ⟨[⟨url, status, some e⟩], false, some out⟩
        | none => writeEntries url status w rest (k + 1) (out ++ unzippedBytes)
    else writeEntries url status w rest k out

/-- The function `downloadFile`. In the branch of a failed `http.Get` the code
builds `HTTPResponse{url, resp.Status, err}`: with a nil `resp` the field read
is a nil dereference, and the goroutine panics before it sends. -/
def downloadFile (url : String) (w : World) : Run :=
  match fileName url with
  | none => ⟨[], true, none⟩
  | some _ =>
    match w.create with
    | some e => ⟨[⟨url, "", some e⟩], false, none⟩
    | none =>
      match w.get with
      | .failed none _ => ⟨[], true, some ""⟩
      | .failed (some resp) e => ⟨[⟨url, resp.Status, some e⟩], false, some ""⟩
      | .ok resp =>
        if resp.StatusCode ≠ 200 then ⟨[⟨url, resp.Status, none⟩], false, some ""⟩
        else
          match resp.Body with
          | .error e => ⟨[⟨url, resp.Status, some e⟩], false, some ""⟩
          | .ok body =>
            match w.newReader body with
            | .error e => ⟨[⟨url, resp.Status, some e⟩], false, some ""⟩
            | .ok files => writeEntries url resp.Status w files 0 ""

/-- The bytes of the entries named `master.idx`, in archive order. -/
def masterIdxBytes : List ZipFile → String
  | [] => ""
  | zf :: rest =>
    if zf.Name = "master.idx" then
      (match zf.content with
        | .ok b => b
        | .error _ => "") ++ masterIdxBytes rest
    else masterIdxBytes rest

/-! ## Merge stage -/

/-- The pieces `bufio.ScanLines` cuts a file into, before the carriage return
is dropped: each piece ends at a line feed, and a non-empty rest after the
last line feed is a piece of its own. -/
def rawLines : List Char → List (List Char)
  | [] => []
  | c :: cs =>
    if c = '\n' then [] :: rawLines cs
    else (c :: (rawLines cs).headD []) :: (rawLines cs).tail

/-- The helper `dropCR` of `bufio`: one trailing carriage return is removed. -/
def dropCR (l : List Char) : List Char :=
  if l.getLast? = some '\r' then l.dropLast else l

/-- The constant `bufio.MaxScanTokenSize`. -/
def maxScanTokenSize : Nat := 64 * 1024

/-- The tokens `sc.Scan()` delivers until it returns false, and whether
`sc.Err()` is then non-nil: a piece of `maxScanTokenSize` bytes or more does
not fit the scanner's buffer, and the scan stops there with `ErrTooLong`. -/
def scanTokens : List (List Char) → List String × Bool
  | [] => ([], false)
  | l :: ls =>
    if maxScanTokenSize ≤ (String.mk l).utf8ByteSize then ([], true)
    else (String.mk (dropCR l) :: (scanTokens ls).1, (scanTokens ls).2)

/-- The lines of a file as the scanner of `mergeFiles` sees them. -/
def fileLines (content : String) : List String :=
  (scanTokens (rawLines content.data)).1

/-- The loop `for sc.Scan()` of `mergeFiles` over the tokens still to come:
`counter` as in the code, `w` the bytes handed to the writer so far. The
counter stays below the 64-bit bound, a file having fewer lines than bytes. -/
def writeLoop : List String → Nat → String → String
  | [], _, w => w
  | line :: rest, counter, w =>
    writeLoop rest (counter + 1) (if counter > 10 then w ++ (line ++ "\n") else w)

/-- An entry of the destination directory: a regular file with its content,
or a subdirectory (which opens but cannot be read). -/
inductive Node where
  | file (content : String)
  | dir
  deriving DecidableEq, Repr

/-- The destination directory: its entries by name, in the order in which
`ioutil.ReadDir` lists them (sorted by name). -/
abbrev Dir := List (String × Node)

/-- How a call ends: it returns, or `log.Fatalf` ends the process; either way
with the directory as it then is. `unmodelled` marks the one situation the
embedding does not follow (see `mergeFiles`). -/
inductive Exit (σ : Type) where
  | returned (s : σ)
  | fatal (s : σ)
  | unmodelled
  deriving DecidableEq, Repr

/-- The entry called `name`, if the directory has one. -/
def stat : Dir → String → Option Node
  | [], _ => none
  | (k, v) :: es, name => if k = name then some v else stat es name

/-- A node after `bytes` are appended: a regular file grows, a subdirectory
stays as it is. -/
def appendNode (bytes : String) : Node → Node
  | .file c => .file (c ++ bytes)
  | .dir => .dir

/-- Appending bytes to the regular file `name`. -/
def appendTo : Dir → String → String → Dir
  | [], _, _ => []
  | (k, v) :: es, name, bytes =>
    if k = name then (k, appendNode bytes v) :: appendTo es name bytes
    else (k, v) :: appendTo es name bytes

/-- The call `w.Flush()`: the buffered bytes reach the file behind
`masterFile`; with a nil `masterFile` the write fails and they are lost. -/
def flush (d : Dir) (masterFile : Option String) (buf : String) : Dir :=
  match masterFile with
  | none => d
  | some m => appendTo d m buf

/-- The size of the buffer of `bufio.NewWriter`. -/
def defaultBufSize : Nat := 4096

/-- The function `mergeFiles`; `masterFile` is the open handle, by the name of
its file, or `none` for a nil handle.

The writer passes bytes on before `Flush` only once more than
`defaultBufSize` of them have come in. Up to that size the file read is the
one that was opened, also when it is the master file itself. Beyond it, a
master file that is read while it grows is outside the embedding:
`unmodelled`. -/
def mergeFiles (d : Dir) (name : String) (masterFile : Option String) : Exit Dir :=
  match stat d name with
  | none => .fatal d
  | some .dir => .fatal d
  | some (.file content) =>
    let tokens := scanTokens (rawLines content.data)
    let buf := writeLoop tokens.1 0 ""
    if masterFile = some name ∧ defaultBufSize < buf.utf8ByteSize then .unmodelled
    else if tokens.2 then .fatal (flush d masterFile buf)
    else .returned (flush d masterFile buf)

/-- A new entry takes its place in name order. -/
def insertEntry (name : String) (n : Node) : Dir → Dir
  | [] => [(name, n)]
  | e :: es =>
    if name.data < e.1.data then (name, n) :: e :: es
    else e :: insertEntry name n es

/-- The call `os.OpenFile(dir + "/master.tsv", O_RDWR|O_APPEND|O_CREATE, 0660)`:
an existing file is opened as it is, a missing one is created empty, and on a
subdirectory of that name the call fails and leaves a nil handle. -/
def openMaster (d : Dir) : Dir × Option String :=
  match stat d "master.tsv" with
  | some (.file _) => (d, some "master.tsv")
  | some .dir => (d, none)
  | none => (insertEntry "master.tsv" (.file "") d, some "master.tsv")

/-- The loop `for _, file := range files` of `MergeIndexFiles`. -/
def mergeLoop (masterFile : Option String) : List String → Dir → Exit Dir
  | [], d => .returned d
  | name :: rest, d =>
    match mergeFiles d name masterFile with
    | .returned d1 => mergeLoop masterFile rest d1
    | .fatal d1 => .fatal d1
    | .unmodelled => .unmodelled

/-- The method `MergeIndexFiles` on an existing destination directory: the
listing is taken first, then the master file is opened, then every listed
name is merged. -/
def MergeIndexFiles (d : Dir) : Exit Dir :=
  let files := d.map Prod.fst
  let opened := openMaster d
  mergeLoop opened.2 files opened.1

/-- The content of the consolidated output `master.tsv`. -/
def masterContent (d : Dir) : Option String :=
  match stat d "master.tsv" with
  | some (.file c) => some c
  | _ => none

/-- The data lines of a fragment: its lines after the eleventh, each with a
line feed. -/
def dataLines (content : String) : List String :=
  ((fileLines content).drop 11).map fun line => line ++ "\n"

/-- Concatenation of a list of strings. -/
def concat : List String → String
  | [] => ""
  | s :: ss => s ++ concat ss

/-- A regular file every line of which fits the scanner's buffer. -/
def readable (content : String) : Prop :=
  ∀ l ∈ rawLines content.data, (String.mk l).utf8ByteSize < maxScanTokenSize

instance (content : String) : Decidable (readable content) := by
  unfold readable
  infer_instance

/-- The data lines of the directory entry `name`; a name that is no regular
file has none. -/
def fragmentData (d : Dir) (name : String) : List String :=
  match stat d name with
  | some (.file c) => dataLines c
  | _ => []

/-- A fragment as a worker leaves it: eleven header lines, then one record. -/
def sampleFragment : String :=
  "H1\nH2\nH3\nH4\nH5\nH6\nH7\nH8\nH9\nH10\nH11\nX\n"

/-! ## Fan-out coordinator -/

/-- What the scheduler lets run next: the goroutine of `downloadFiles` itself,
or the `i`-th of the workers that are launched and have not finished. -/
inductive Action where
  | coordinator
  | worker (i : Nat)
  deriving DecidableEq, Repr

/-- The state of one call of `downloadFiles`: the capacity of `ch`, the URLs
the first loop has not reached (each with the world its worker will meet), the
workers launched and not finished (each by what its `downloadFile` does), the
outcomes buffered in `ch`, the iterations the second loop still has to make,
the outcomes it has logged, and whether a panic has ended the process. -/
structure Fanout where
  capacity : Nat
  unlaunched : List (String × World)
  workers : List Run
  ch : List HTTPResponse
  receives : Nat
  logged : List HTTPResponse
  crashed : Bool

/-- The state after `ch := make(chan HTTPResponse, len(urls))`. -/
def Fanout.start (jobs : List (String × World)) : Fanout :=
  ⟨jobs.length, jobs, [], [], jobs.length, [], false⟩

/-- Taking the `i`-th element out of a list. -/
def pick : List Run → Nat → Option (Run × List Run)
  | [], _ => none
  | r :: rs, 0 => some (r, rs)
  | r :: rs, i + 1 => (pick rs i).map fun p => (p.1, r :: p.2)

/-- One scheduling decision. The coordinator launches the next worker, or,
the first loop done, receives one outcome and logs it; it waits while `ch` is
empty and has returned once the second loop is through. A worker runs
`downloadFile` to its end: it panics, which ends the process, or it puts its
outcome on `ch` and returns; it waits while `ch` has no room. A decision for a
goroutine that waits or does not exist changes nothing. -/
def step (s : Fanout) : Action → Fanout
  | .coordinator =>
    if s.crashed then s
    else
      match s.unlaunched with
      | (url, w) :: rest =>
        { s with unlaunched := rest, workers := s.workers ++ [downloadFile url w] }
      | [] =>
        if s.receives = 0 then s
        else
          match s.ch with
          | [] => s
          | o :: rest =>
            { s with ch := rest, receives := s.receives - 1, logged := s.logged ++ [o] }
  | .worker i =>
    if s.crashed then s
    else
      match pick s.workers i with
      | none => s
      | some (run, rest) =>
        if run.crashed then { s with crashed := true }
        else if s.ch.length + run.sent.length ≤ s.capacity then
          { s with ch := s.ch ++ run.sent, workers := rest }
        else s

/-- The function `downloadFiles` under a schedule: `jobs` are the URLs, each
with the world its worker meets. -/
def downloadFiles (jobs : List (String × World)) (schedule : List Action) : Fanout :=
  schedule.foldl step (Fanout.start jobs)

/-- The outcomes still to come from the workers of a state. -/
def pending (s : Fanout) : Nat :=
  (s.unlaunched.map fun p => (downloadFile p.1 p.2).sent.length).sum
    + (s.workers.map fun r => r.sent.length).sum

/-- A world in which the download of an archive with `master.idx` succeeds. -/
def okWorld : World :=
  ⟨none, .ok ⟨"200 OK", 200, .ok "PK"⟩,
    fun _ => .ok [⟨"master.idx", .ok "HEADER\nA\nB\n"⟩], fun _ => none⟩

/-- A world in which `http.Get` fails without a response. -/
def downWorld : World :=
  ⟨none, .failed none "dial tcp: connection refused", fun _ => .ok [], fun _ => none⟩

/-- Fifty endpoints, the years 2009..2021 as seen in the second quarter of
2021; the first worker meets `downWorld`, the others `okWorld`. -/
def fiftyJobs : List (String × World) :=
  match expectedURLs 2021 2 2009 2021 with
  | [] => []
  | u :: us => (u, downWorld) :: us.map fun v => (v, okWorld)

/-! ## Reading decimal numbers back -/

/-- The value of a digit character. -/
def digitVal (c : Char) : Nat := c.toNat - 48

/-- The number a sequence of digit characters denotes. -/
def decimalValue (l : List Char) : Nat := l.foldl (fun a c => a * 10 + digitVal c) 0

/-! # Theorems -/

/-! ## Endpoint generator -/

theorem endpoint_eq_locator (y : Int) :
    EDGAR_PREFIX ++ Itoa y ++ "/" ++ "QTR1" ++ "/master.zip" = locator y 1 ∧
    EDGAR_PREFIX ++ Itoa y ++ "/" ++ "QTR2" ++ "/master.zip" = locator y 2 ∧
    EDGAR_PREFIX ++ Itoa y ++ "/" ++ "QTR3" ++ "/master.zip" = locator y 3 ∧
    EDGAR_PREFIX ++ Itoa y ++ "/" ++ "QTR4" ++ "/master.zip" = locator y 4 := by
  simp only [locator, String.append_assoc]
  refine ⟨?_, ?_, ?_, ?_⟩ <;> congr 2

theorem wrap64_eq (x : Int) (h1 : MinInt64 ≤ x) (h2 : x ≤ MaxInt64) : wrap64 x = x := by
  simp only [wrap64, MinInt64, MaxInt64] at *
  omega

theorem quarterLoop_eq (cy cq y : Int) (acc : List String) :
    quarterLoop cy cq y 0 quarters acc
      = acc ++ (quartersOf cy (wrap64 (cq - 1) + 1) y).map (locator y) := by
  obtain ⟨e1, e2, e3, e4⟩ := endpoint_eq_locator y
  simp only [quarters, quarterLoop, e1, e2, e3, e4, quartersOf]
  generalize wrap64 (cq - 1) = c
  by_cases hy : y = cy
  · subst hy
    have g0 : (((0 : Nat) : Int) > c) ↔ ¬ ((1 : Int) ≤ c + 1) := by omega
    have g1 : ((((0 : Nat) + 1 : Nat) : Int) > c) ↔ ¬ ((2 : Int) ≤ c + 1) := by omega
    have g2 : ((((0 : Nat) + 1 + 1 : Nat) : Int) > c) ↔ ¬ ((3 : Int) ≤ c + 1) := by omega
    have g3 : ((((0 : Nat) + 1 + 1 + 1 : Nat) : Int) > c) ↔ ¬ ((4 : Int) ≤ c + 1) := by omega
    by_cases h1 : (1 : Int) ≤ c + 1 <;> by_cases h2 : (2 : Int) ≤ c + 1 <;>
      by_cases h3 : (3 : Int) ≤ c + 1 <;> by_cases h4 : (4 : Int) ≤ c + 1 <;>
      first
        | (exfalso; omega)
        | (simp [List.filter, g0, g1, g2, g3, h1, h2, h3, h4]
           split_ifs <;> first | rfl | omega)
  · simp [List.filter, hy]

theorem yearLoop_eq (cy cq : Int) (ys : List Int) (acc : List String) :
    yearLoop cy cq ys acc = acc ++ locatorsOf cy (wrap64 (cq - 1) + 1) ys := by
  induction ys generalizing acc with
  | nil => simp [yearLoop, locatorsOf]
  | cons y ys ih =>
    simp only [locatorsOf] at ih
    simp [yearLoop, ih, quarterLoop_eq, locatorsOf, List.flatMap_cons]

theorem createRange_eq (start stop : Int) (hlo : MinInt64 ≤ start) (hhi : stop ≤ MaxInt64)
    (h : start ≤ stop + 1) (hlen : stop - start < 2 ^ 45) :
    createRange start stop = some (yearsOf start stop) := by
  have hn : wrap64 (wrap64 (stop - start) + 1) = stop + 1 - start := by
    simp only [wrap64, MinInt64, MaxInt64] at *
    omega
  have h1 : ¬ (stop + 1 - start < 0 ∨ maxAlloc < 8 * (stop + 1 - start)) := by
    simp only [maxAlloc]
    omega
  simp only [createRange, hn, if_neg h1, yearsOf, Option.some.injEq]
  refine List.map_congr_left ?_
  intro i hi
  have hi2 := List.mem_range.mp hi
  apply wrap64_eq
  · simp only [MinInt64] at *
    omega
  · simp only [MaxInt64] at *
    omega

theorem createRange_negative (start stop : Int) (h : stop + 1 < start)
    (hw : start - stop ≤ 2 ^ 63) :
    createRange start stop = none := by
  have h1 : wrap64 (wrap64 (stop - start) + 1) < 0 := by
    simp only [wrap64, MinInt64, MaxInt64] at *
    omega
  simp [createRange, h1]

theorem createRange_wraps : createRange MaxInt64 MinInt64 = some [MaxInt64, MinInt64] := by
  decide

theorem createRange_too_long (start stop : Int) (hlen : 2 ^ 45 ≤ stop - start)
    (hne : stop - start < 2 ^ 64 - 1) :
    createRange start stop = none := by
  have h1 : wrap64 (wrap64 (stop - start) + 1) < 0
      ∨ maxAlloc < 8 * wrap64 (wrap64 (stop - start) + 1) := by
    simp only [wrap64, MinInt64, MaxInt64, maxAlloc] at *
    omega
  simp [createRange, h1]

theorem createRange_nodup (a b : Int) (ys : List Int) (h : createRange a b = some ys) :
    ys.Nodup := by
  unfold createRange at h
  simp only at h
  split_ifs at h with hn
  injection h with h
  subst h
  refine List.Nodup.map_on ?_ (List.nodup_range _)
  intro i hi j hj hij
  have hi2 := List.mem_range.mp hi
  have hj2 := List.mem_range.mp hj
  simp only [maxAlloc] at hn
  simp only [wrap64] at hij
  omega

theorem mem_yearsOf (start stop y : Int) : y ∈ yearsOf start stop ↔ start ≤ y ∧ y ≤ stop := by
  simp only [yearsOf, List.mem_map, List.mem_range]
  constructor
  · rintro ⟨k, hk, rfl⟩
    omega
  · rintro ⟨h1, h2⟩
    exact ⟨(y - start).toNat, by omega, by omega⟩

theorem yearsOf_ascending (start stop : Int) : (yearsOf start stop).Pairwise (· < ·) := by
  unfold yearsOf
  rw [List.pairwise_map]
  refine (List.pairwise_lt_range _).imp ?_
  intro a b hab
  omega

theorem generateURLsAt_some (cy cq start stop : Int) (urls : List String)
    (h : generateURLsAt cy cq start stop = some urls) :
    ∃ years, years.Nodup ∧ urls = locatorsOf cy (wrap64 (cq - 1) + 1) years := by
  unfold generateURLsAt at h
  cases hc : createRange start stop with
  | none => simp [hc] at h
  | some years =>
    simp only [hc, Option.map_some', yearLoop_eq, List.nil_append, Option.some.injEq] at h
    exact ⟨years, createRange_nodup _ _ _ hc, h.symm⟩

theorem generateURLsAt_eq (cy cq start stop : Int) (hlo : MinInt64 ≤ start)
    (hhi : stop ≤ MaxInt64) (h : start ≤ stop + 1) (hlen : stop - start < 2 ^ 45)
    (hq1 : MinInt64 < cq) (hq2 : cq ≤ MaxInt64) :
    generateURLsAt cy cq start stop = some (expectedURLs cy cq start stop) := by
  have hw : wrap64 (cq - 1) + 1 = cq := by
    simp only [wrap64, MinInt64, MaxInt64] at *
    omega
  simp [generateURLsAt, createRange_eq start stop hlo hhi h hlen, yearLoop_eq, expectedURLs, hw]

theorem currentQuarter_range (m : Nat) (h1 : 1 ≤ m) (h12 : m ≤ 12) :
    1 ≤ currentQuarter m ∧ currentQuarter m ≤ 4 := by
  interval_cases m <;> norm_num [currentQuarter, roundToEven, Rat.floor]

theorem currentQuarter_eq_calendar (m : Nat) (h1 : 1 ≤ m) (h12 : m ≤ 12) (hfeb : m ≠ 2)
    (hmar : m ≠ 3) : currentQuarter m = calendarQuarter m := by
  interval_cases m <;>
    first
      | exact absurd rfl hfeb
      | exact absurd rfl hmar
      | norm_num [currentQuarter, roundToEven, Rat.floor, calendarQuarter]

/-! ## Decimal rendering -/

theorem digitChar_spec : ∀ d : Fin 10,
    digitVal (Nat.digitChar d) = d ∧ Nat.digitChar d ≠ '/' ∧ Nat.digitChar d ≠ '-' := by
  decide

theorem foldl_decimal (l : List Char) (a : Nat) :
    l.foldl (fun a c => a * 10 + digitVal c) a = a * 10 ^ l.length + decimalValue l := by
  induction l generalizing a with
  | nil => simp [decimalValue]
  | cons c l ih =>
    simp only [List.foldl_cons, List.length_cons, decimalValue]
    rw [ih, ih (0 * 10 + digitVal c)]
    ring

theorem decimalValue_toDigitsCore (fuel : Nat) : ∀ (n : Nat) (ds : List Char), n < fuel →
    decimalValue (Nat.toDigitsCore 10 fuel n ds) = n * 10 ^ ds.length + decimalValue ds := by
  induction fuel with
  | zero => intro n ds h; omega
  | succ fuel ih =>
    intro n ds h
    have hd := (digitChar_spec ⟨n % 10, Nat.mod_lt _ (by norm_num)⟩).1
    simp only at hd
    have hcons : decimalValue (Nat.digitChar (n % 10) :: ds)
        = (n % 10) * 10 ^ ds.length + decimalValue ds := by
      simp only [decimalValue, List.foldl_cons]
      rw [foldl_decimal, hd]
      simp [decimalValue]
    simp only [Nat.toDigitsCore]
    split_ifs with h0
    · rw [hcons]
      have : n % 10 = n := Nat.mod_eq_of_lt (by omega)
      rw [this]
    · rw [ih (n / 10) _ (by omega), hcons, List.length_cons, pow_succ]
      have e := Nat.div_add_mod n 10
      calc n / 10 * (10 ^ ds.length * 10) + (n % 10 * 10 ^ ds.length + decimalValue ds)
          = (10 * (n / 10) + n % 10) * 10 ^ ds.length + decimalValue ds := by ring
        _ = n * 10 ^ ds.length + decimalValue ds := by rw [e]

theorem toDigits_injective (a b : Nat) (h : Nat.toDigits 10 a = Nat.toDigits 10 b) : a = b := by
  have ha := decimalValue_toDigitsCore (a + 1) a [] (by omega)
  have hb := decimalValue_toDigitsCore (b + 1) b [] (by omega)
  unfold Nat.toDigits at h
  rw [h] at ha
  simp [decimalValue] at ha hb
  omega

theorem toDigitsCore_chars (fuel : Nat) : ∀ (n : Nat) (ds : List Char),
    (∀ c ∈ ds, c ≠ '/' ∧ c ≠ '-') →
    ∀ c ∈ Nat.toDigitsCore 10 fuel n ds, c ≠ '/' ∧ c ≠ '-' := by
  induction fuel with
  | zero => intro n ds h; simpa [Nat.toDigitsCore] using h
  | succ fuel ih =>
    intro n ds h
    have hd := (digitChar_spec ⟨n % 10, Nat.mod_lt _ (by norm_num)⟩).2
    simp only at hd
    have hcons : ∀ c ∈ Nat.digitChar (n % 10) :: ds, c ≠ '/' ∧ c ≠ '-' := by
      intro c hc
      rcases List.mem_cons.mp hc with rfl | hc
      · exact hd
      · exact h c hc
    simp only [Nat.toDigitsCore]
    split_ifs with h0
    · exact hcons
    · exact ih _ _ hcons

theorem toDigits_chars (n : Nat) : ∀ c ∈ Nat.toDigits 10 n, c ≠ '/' ∧ c ≠ '-' :=
  toDigitsCore_chars _ _ _ (by simp)

theorem Itoa_no_slash (i : Int) : '/' ∉ (Itoa i).data := by
  unfold Itoa
  split_ifs with h
  · simp only [String.data_append]
    intro hc
    rcases List.mem_append.mp hc with hc | hc
    · revert hc; decide
    · exact (toDigits_chars _ _ hc).1 rfl
  · intro hc
    exact (toDigits_chars _ _ hc).1 rfl

theorem Itoa_injective (i j : Int) (h : Itoa i = Itoa j) : i = j := by
  have h := congrArg String.data h
  unfold Itoa at h
  split_ifs at h with hi hj hj
  · simp only [String.data_append] at h
    have := toDigits_injective _ _ (List.append_cancel_left h)
    omega
  · exfalso
    have hm : '-' ∈ ("-" ++ String.mk (Nat.toDigits 10 (-i).toNat)).data := by
      simp [String.data_append]
    rw [h] at hm
    exact (toDigits_chars _ _ hm).2 rfl
  · exfalso
    have hm : '-' ∈ ("-" ++ String.mk (Nat.toDigits 10 (-j).toNat)).data := by
      simp [String.data_append]
    rw [← h] at hm
    exact (toDigits_chars _ _ hm).2 rfl
  · have := toDigits_injective _ _ h
    omega

/-! ## Local file names -/

theorem splitChars_ne_nil (sep : Char) (l : List Char) : splitChars sep l ≠ [] := by
  cases l with
  | nil => simp [splitChars]
  | cons c cs =>
    simp only [splitChars]
    split_ifs <;> simp

theorem splitChars_append_sep (sep : Char) (a b : List Char) :
    splitChars sep (a ++ sep :: b) = splitChars sep a ++ splitChars sep b := by
  induction a with
  | nil => simp [splitChars]
  | cons c cs ih =>
    simp only [List.cons_append, splitChars]
    split_ifs with h
    · simp [ih]
    · have ih2 : splitChars sep (cs.append (sep :: b))
          = splitChars sep cs ++ splitChars sep b := ih
      rw [ih2]
      obtain ⟨x, xs, hx⟩ := List.exists_cons_of_ne_nil (splitChars_ne_nil sep cs)
      simp [hx]

theorem splitChars_of_not_mem (sep : Char) (a : List Char) (h : sep ∉ a) :
    splitChars sep a = [a] := by
  induction a with
  | nil => simp [splitChars]
  | cons c cs ih =>
    have hc : c ≠ sep := fun e => h (by simp [e])
    have hcs : sep ∉ cs := fun e => h (by simp [e])
    simp [splitChars, hc, ih hcs]

theorem Split_endpoint (y : Int) (q : String) (hq : '/' ∉ q.data) :
    Split (EDGAR_PREFIX ++ Itoa y ++ "/" ++ q ++ "/master.zip") '/'
      = ["https:", "", "www.sec.gov", "Archives", "edgar", "full-index", Itoa y, q,
          "master.zip"] := by
  have hp : EDGAR_PREFIX.data
      = "https://www.sec.gov/Archives/edgar/full-index".data ++ '/' :: [] := by decide
  have hs : ("/" : String).data = ['/'] := rfl
  have hz : ("/master.zip" : String).data = '/' :: "master.zip".data := rfl
  have e : (EDGAR_PREFIX ++ Itoa y ++ "/" ++ q ++ "/master.zip").data
      = "https://www.sec.gov/Archives/edgar/full-index".data
          ++ '/' :: ((Itoa y).data ++ '/' :: (q.data ++ '/' :: "master.zip".data)) := by
    simp only [String.data_append, hp, hs, hz, List.append_assoc, List.cons_append,
      List.nil_append]
  unfold Split
  rw [e, splitChars_append_sep, splitChars_append_sep, splitChars_append_sep,
    splitChars_of_not_mem _ _ (Itoa_no_slash y), splitChars_of_not_mem _ _ hq]
  have h1 : splitChars '/' "https://www.sec.gov/Archives/edgar/full-index".data
      = ["https:".data, "".data, "www.sec.gov".data, "Archives".data, "edgar".data,
          "full-index".data] := by decide
  have h2 : splitChars '/' "master.zip".data = ["master.zip".data] := by decide
  rw [h1, h2]
  rfl

theorem fileName_endpoint (y : Int) (q : String) (hq : '/' ∉ q.data) :
    fileName (EDGAR_PREFIX ++ Itoa y ++ "/" ++ q ++ "/master.zip")
      = some (Itoa y ++ "-" ++ q ++ ".tsv") := by
  simp [fileName, Split_endpoint y q hq]

theorem locator_eq_endpoint (y : Int) (q : Nat) (hq : q ∈ [1, 2, 3, 4]) :
    ∃ label : String, '/' ∉ label.data ∧ label = "QTR" ++ Itoa q ∧
      locator y q = EDGAR_PREFIX ++ Itoa y ++ "/" ++ label ++ "/master.zip" := by
  refine ⟨"QTR" ++ Itoa q, ?_, rfl, ?_⟩
  · simp only [List.mem_cons, List.mem_singleton, List.not_mem_nil, or_false] at hq
    rcases hq with rfl | rfl | rfl | rfl <;> decide
  · simp only [locator, String.append_assoc]
    rfl

theorem fileName_locator (y : Int) (q : Nat) (hq : q ∈ [1, 2, 3, 4]) :
    fileName (locator y q) = some (Itoa y ++ "-QTR" ++ Itoa q ++ ".tsv") := by
  obtain ⟨label, h1, h2, h3⟩ := locator_eq_endpoint y q hq
  rw [h3, fileName_endpoint y label h1, h2]
  simp only [String.append_assoc]
  rfl

theorem mem_quartersOf (cy cq y : Int) (q : Nat) (h : q ∈ quartersOf cy cq y) :
    q ∈ [1, 2, 3, 4] :=
  (List.mem_filter.mp h).1

theorem quartersOf_nodup (cy cq y : Int) : (quartersOf cy cq y).Nodup :=
  List.Nodup.filter _ (by decide)

theorem locatorsOf_eq_map (cy cq : Int) (years : List Int) :
    locatorsOf cy cq years
      = (years.flatMap fun y =>
          (quartersOf cy cq y).map fun q => (y, q)).map fun p => locator p.1 p.2 := by
  simp [locatorsOf, List.map_flatMap, Function.comp_def]

theorem endpoints_nodup (cy cq : Int) (years : List Int) (hy : years.Nodup) :
    (years.flatMap fun y => (quartersOf cy cq y).map fun q => (y, q)).Nodup := by
  rw [List.nodup_flatMap]
  constructor
  · intro y _
    exact (quartersOf_nodup cy cq y).map (fun a b hab => (Prod.mk.inj hab).2)
  · refine List.Pairwise.imp ?_ hy
    intro a b hab p hp1 hp2
    obtain ⟨q1, _, rfl⟩ := List.mem_map.mp hp1
    obtain ⟨q2, _, h2⟩ := List.mem_map.mp hp2
    exact hab (Prod.mk.inj h2).1.symm

theorem name_injective (y y2 : Int) (q q2 : Nat) (hq : q ∈ [1, 2, 3, 4])
    (hq2 : q2 ∈ [1, 2, 3, 4])
    (h : Itoa y ++ "-QTR" ++ Itoa q ++ ".tsv" = Itoa y2 ++ "-QTR" ++ Itoa q2 ++ ".tsv") :
    y = y2 ∧ q = q2 := by
  have h := congrArg String.data h
  simp only [String.data_append, List.append_assoc] at h
  have hl : ("-QTR".data ++ ((Itoa (q : Int)).data ++ ".tsv".data)).length
      = ("-QTR".data ++ ((Itoa (q2 : Int)).data ++ ".tsv".data)).length := by
    simp only [List.mem_cons, List.mem_singleton, List.not_mem_nil, or_false] at hq hq2
    rcases hq with rfl | rfl | rfl | rfl <;> rcases hq2 with rfl | rfl | rfl | rfl <;> decide
  obtain ⟨h1, h2⟩ := List.append_inj' h hl
  refine ⟨Itoa_injective _ _ (String.ext h1), ?_⟩
  simp only [List.mem_cons, List.mem_singleton, List.not_mem_nil, or_false] at hq hq2
  rcases hq with rfl | rfl | rfl | rfl <;> rcases hq2 with rfl | rfl | rfl | rfl <;>
    first
      | rfl
      | (exfalso; revert h2; decide)

theorem locatorsOf_names (cy cq : Int) (years : List Int) (hy : years.Nodup) :
    (∀ u ∈ locatorsOf cy cq years, ∃ (y : Int) (q : Nat), q ∈ [1, 2, 3, 4] ∧
      u = locator y q ∧ fileName u = some (Itoa y ++ "-QTR" ++ Itoa q ++ ".tsv")) ∧
    ((locatorsOf cy cq years).map fileName).Nodup := by
  have hm : ∀ (p : Int × Nat), (p ∈ years.flatMap fun y =>
      (quartersOf cy cq y).map fun q => (y, q)) → p.2 ∈ [1, 2, 3, 4] := by
    rintro ⟨a, b⟩ hab
    obtain ⟨a2, _, hb⟩ := List.mem_flatMap.mp hab
    obtain ⟨b2, hb2, e2⟩ := List.mem_map.mp hb
    obtain ⟨rfl, rfl⟩ := Prod.mk.inj e2
    exact mem_quartersOf cy cq _ _ hb2
  constructor
  · intro u hu
    rw [locatorsOf_eq_map] at hu
    obtain ⟨⟨y, q⟩, hp, rfl⟩ := List.mem_map.mp hu
    have hq := hm _ hp
    exact ⟨_, _, hq, rfl, fileName_locator _ _ hq⟩
  · rw [locatorsOf_eq_map, List.map_map]
    refine List.Nodup.map_on ?_ (endpoints_nodup cy cq years hy)
    rintro ⟨y, q⟩ hp ⟨y2, q2⟩ hp2 e
    have m1 := hm _ hp
    have m2 := hm _ hp2
    simp only [Function.comp_apply, fileName_locator _ _ m1, fileName_locator _ _ m2,
      Option.some.injEq] at e
    obtain ⟨rfl, rfl⟩ := name_injective _ _ _ _ m1 m2 e
    rfl

/-! ## Fetch-extract worker -/

theorem writeEntries_ok (url status : String) (w : World) (hwrite : ∀ k, w.write k = none) :
    ∀ (files : List ZipFile) (k : Nat) (out : String),
      (∀ zf ∈ files, zf.Name = "master.idx" → ∃ b, zf.content = .ok b) →
      writeEntries url status w files k out
        = ⟨[⟨url, status, none⟩], false, some (out ++ masterIdxBytes files)⟩ := by
  intro files
  induction files with
  | nil => intro k out _; simp [writeEntries, masterIdxBytes]
  | cons zf rest ih =>
    intro k out h
    have hrest : ∀ zf ∈ rest, zf.Name = "master.idx" → ∃ b, zf.content = .ok b :=
      fun z hz => h z (List.mem_cons_of_mem _ hz)
    by_cases hn : zf.Name = "master.idx"
    · obtain ⟨b, hb⟩ := h zf (List.mem_cons_self _ _) hn
      simp [writeEntries, masterIdxBytes, hn, hb, hwrite, ih _ _ hrest, String.append_assoc]
    · simp [writeEntries, masterIdxBytes, hn, ih _ _ hrest]

theorem masterIdxBytes_none (files : List ZipFile)
    (h : ∀ zf ∈ files, zf.Name ≠ "master.idx") : masterIdxBytes files = "" := by
  induction files with
  | nil => rfl
  | cons zf rest ih =>
    have h1 := h zf (List.mem_cons_self _ _)
    simp [masterIdxBytes, h1, ih (fun z hz => h z (List.mem_cons_of_mem _ hz))]

theorem masterIdxBytes_append (a b : List ZipFile) :
    masterIdxBytes (a ++ b) = masterIdxBytes a ++ masterIdxBytes b := by
  induction a with
  | nil => simp [masterIdxBytes]
  | cons zf rest ih =>
    by_cases hn : zf.Name = "master.idx"
    · simp [masterIdxBytes, hn, ih, String.append_assoc]
    · simp [masterIdxBytes, hn, ih]

theorem writeEntries_sends_once (url status : String) (w : World) :
    ∀ (files : List ZipFile) (k : Nat) (out : String),
      (writeEntries url status w files k out).sent.length = 1 ∧
      (writeEntries url status w files k out).crashed = false := by
  intro files
  induction files with
  | nil => intro k out; simp [writeEntries]
  | cons zf rest ih =>
    intro k out
    unfold writeEntries
    split_ifs
    · split
      · simp
      · split
        · simp
        · exact ih _ _
    · exact ih _ _

theorem downloadFile_sends_once (url : String) (w : World)
    (h : (downloadFile url w).crashed = false) : (downloadFile url w).sent.length = 1 := by
  revert h
  unfold downloadFile
  repeat' split
  all_goals first
    | simp
    | exact fun _ => (writeEntries_sends_once _ _ _ _ _ _).1

theorem downloadFile_crashes_iff (url : String) (w : World) :
    (downloadFile url w).crashed = true ↔
      fileName url = none ∨ (w.create = none ∧ ∃ e, w.get = .failed none e) := by
  unfold downloadFile
  repeat' split
  all_goals simp_all [(writeEntries_sends_once _ _ _ _ _ _).2]

/-! ## Merge stage -/

theorem concat_append (a b : List String) : concat (a ++ b) = concat a ++ concat b := by
  induction a with
  | nil => simp [concat]
  | cons s ss ih => simp [concat, ih, String.append_assoc]

theorem writeLoop_eq : ∀ (tokens : List String) (counter : Nat) (w : String),
    writeLoop tokens counter w
      = w ++ concat ((tokens.drop (11 - counter)).map fun line => line ++ "\n") := by
  intro tokens
  induction tokens with
  | nil => intro counter w; simp [writeLoop, concat]
  | cons t ts ih =>
    intro counter w
    rw [writeLoop, ih]
    by_cases hc : counter > 10
    · have h1 : 11 - (counter + 1) = 0 := by omega
      have h2 : 11 - counter = 0 := by omega
      simp [hc, h1, h2, concat, String.append_assoc]
    · have h2 : 11 - counter = (11 - (counter + 1)) + 1 := by omega
      rw [if_neg hc, h2, List.drop_succ_cons]

theorem scanTokens_readable : ∀ (ls : List (List Char)),
    (∀ l ∈ ls, (String.mk l).utf8ByteSize < maxScanTokenSize) →
    scanTokens ls = (ls.map fun l => String.mk (dropCR l), false) := by
  intro ls
  induction ls with
  | nil => intro _; rfl
  | cons l ls ih =>
    intro h
    have h1 : ¬ maxScanTokenSize ≤ (String.mk l).utf8ByteSize :=
      Nat.not_le.mpr (h l (List.mem_cons_self _ _))
    rw [scanTokens, if_neg h1, ih (fun x hx => h x (List.mem_cons_of_mem _ hx))]
    rfl

theorem rawLines_append_lf (l rest : List Char) (h : '\n' ∉ l) :
    rawLines (l ++ '\n' :: rest) = l :: rawLines rest := by
  induction l with
  | nil => simp [rawLines]
  | cons c cs ih =>
    have hc : c ≠ '\n' := fun e => h (by simp [e])
    have hcs : '\n' ∉ cs := fun e => h (by simp [e])
    simp [rawLines, hc, ih hcs]

theorem rawLines_headers : ∀ (hs : List String) (rest : String),
    (∀ h ∈ hs, '\n' ∉ h.data) →
    rawLines (concat (hs.map fun h => h ++ "\n") ++ rest).data
      = hs.map String.data ++ rawLines rest.data := by
  intro hs
  induction hs with
  | nil => intro rest _; simp [concat]
  | cons h hs ih =>
    intro rest hh
    have e : (concat (((h :: hs)).map fun h => h ++ "\n") ++ rest).data
        = h.data ++ '\n' :: (concat (hs.map fun h => h ++ "\n") ++ rest).data := by
      simp [concat, String.data_append]
    rw [e, rawLines_append_lf _ _ (hh h (List.mem_cons_self _ _)),
      ih rest (fun x hx => hh x (List.mem_cons_of_mem _ hx))]
    simp

theorem stat_appendTo_ne (d : Dir) (name m bytes : String) (h : name ≠ m) :
    stat (appendTo d m bytes) name = stat d name := by
  induction d with
  | nil => rfl
  | cons e es ih =>
    obtain ⟨k, v⟩ := e
    by_cases hk : k = m
    · subst hk
      have hkn : ¬ k = name := fun e => h e.symm
      simp [appendTo, stat, hkn, ih]
    · by_cases hn : k = name
      · subst hn
        simp [appendTo, stat, hk]
      · simp [appendTo, stat, hk, hn, ih]

theorem stat_appendTo_self (d : Dir) (m bytes c : String)
    (h : stat d m = some (.file c)) :
    stat (appendTo d m bytes) m = some (.file (c ++ bytes)) := by
  induction d with
  | nil => simp [stat] at h
  | cons e es ih =>
    obtain ⟨k, v⟩ := e
    by_cases hk : k = m
    · simp [stat, hk] at h
      simp [appendTo, stat, hk, h, appendNode]
    · simp [stat, hk] at h
      simp [appendTo, stat, hk, ih h]

theorem stat_insertEntry_self (d : Dir) (m : String) (n : Node) (h : stat d m = none) :
    stat (insertEntry m n d) m = some n := by
  induction d with
  | nil => simp [insertEntry, stat]
  | cons e es ih =>
    obtain ⟨k, v⟩ := e
    by_cases hk : k = m
    · simp [stat, hk] at h
    · simp [stat, hk] at h
      unfold insertEntry
      split_ifs
      · simp [stat]
      · simp [stat, hk, ih h]

theorem stat_insertEntry_ne (d : Dir) (m name : String) (n : Node) (h : name ≠ m) :
    stat (insertEntry m n d) name = stat d name := by
  induction d with
  | nil => simp [insertEntry, stat, Ne.symm h]
  | cons e es ih =>
    obtain ⟨k, v⟩ := e
    unfold insertEntry
    split_ifs
    · simp [stat, Ne.symm h]
    · by_cases hk : k = name
      · simp [stat, hk]
      · simp [stat, hk, ih]

theorem mergeFiles_readable (d : Dir) (name master content : String)
    (hfile : stat d name = some (.file content)) (hread : readable content)
    (hne : name ≠ master) :
    mergeFiles d name (some master)
      = .returned (appendTo d master (concat (dataLines content))) := by
  have hs := scanTokens_readable (rawLines content.data) hread
  have hm : ¬ (some master = some name) := fun e => hne (Option.some.inj e).symm
  simp only [mergeFiles, hfile, hs, writeLoop_eq, dataLines, fileLines, flush]
  simp [hm]

theorem mergeLoop_readable : ∀ (files : List String) (d : Dir) (P : String),
    stat d "master.tsv" = some (.file P) →
    (∀ n ∈ files, n ≠ "master.tsv" ∧ ∃ c, stat d n = some (.file c) ∧ readable c) →
    ∃ d1, mergeLoop (some "master.tsv") files d = .returned d1 ∧
      stat d1 "master.tsv" = some (.file (P ++ concat (files.flatMap (fragmentData d)))) ∧
      ∀ n, n ≠ "master.tsv" → stat d1 n = stat d n := by
  intro files
  induction files with
  | nil =>
    intro d P hP _
    exact ⟨d, rfl, by simp [concat, hP], fun _ _ => rfl⟩
  | cons f rest ih =>
    intro d P hP hall
    obtain ⟨hne, c, hc, hr⟩ := hall f (List.mem_cons_self _ _)
    have hstep := mergeFiles_readable d f "master.tsv" c hc hr hne
    have hP1 := stat_appendTo_self d "master.tsv" (concat (dataLines c)) P hP
    have hsame : ∀ n, n ≠ "master.tsv" →
        stat (appendTo d "master.tsv" (concat (dataLines c))) n = stat d n :=
      fun n hn => stat_appendTo_ne d n "master.tsv" _ hn
    have hall1 : ∀ n ∈ rest, n ≠ "master.tsv" ∧
        ∃ c1, stat (appendTo d "master.tsv" (concat (dataLines c))) n = some (.file c1)
          ∧ readable c1 := by
      intro n hn
      obtain ⟨h1, c1, h2, h3⟩ := hall n (List.mem_cons_of_mem _ hn)
      exact ⟨h1, c1, by rw [hsame n h1]; exact h2, h3⟩
    obtain ⟨d1, hrun, hmaster, hothers⟩ := ih _ _ hP1 hall1
    refine ⟨d1, ?_, ?_, ?_⟩
    · simp only [mergeLoop, hstep]
      exact hrun
    · rw [hmaster]
      have hfrag : rest.flatMap (fragmentData (appendTo d "master.tsv" (concat (dataLines c))))
          = rest.flatMap (fragmentData d) := by
        have : ∀ n ∈ rest, fragmentData (appendTo d "master.tsv" (concat (dataLines c))) n
            = fragmentData d n := by
          intro n hn
          have h1 := (hall n (List.mem_cons_of_mem _ hn)).1
          simp only [fragmentData, hsame n h1]
        clear hall1 hrun hmaster hothers ih hall
        induction rest with
        | nil => rfl
        | cons r rs ih2 =>
          simp only [List.flatMap_cons]
          rw [this r (List.mem_cons_self _ _),
            ih2 (fun n hn => this n (List.mem_cons_of_mem _ hn))]
      have hf : fragmentData d f = dataLines c := by simp [fragmentData, hc]
      rw [hfrag, List.flatMap_cons, concat_append, hf, String.append_assoc]
    · intro n hn
      rw [hothers n hn, hsame n hn]

theorem MergeIndexFiles_fresh (d : Dir) (hno : stat d "master.tsv" = none)
    (hall : ∀ n ∈ d.map Prod.fst, ∃ c, stat d n = some (.file c) ∧ readable c) :
    ∃ d1, MergeIndexFiles d = .returned d1 ∧
      masterContent d1 = some (concat ((d.map Prod.fst).flatMap (fragmentData d))) ∧
      ∀ n, n ≠ "master.tsv" → stat d1 n = stat d n := by
  have hopen : openMaster d = (insertEntry "master.tsv" (.file "") d, some "master.tsv") := by
    simp [openMaster, hno]
  have hne : ∀ n ∈ d.map Prod.fst, n ≠ "master.tsv" := by
    intro n hn e
    obtain ⟨c, hc, _⟩ := hall n hn
    rw [e, hno] at hc
    exact Option.noConfusion hc
  have hsame : ∀ n, n ≠ "master.tsv" →
      stat (insertEntry "master.tsv" (.file "") d) n = stat d n :=
    fun n hn => stat_insertEntry_ne d "master.tsv" n _ hn
  obtain ⟨d1, hrun, hmaster, hothers⟩ :=
    mergeLoop_readable (d.map Prod.fst) (insertEntry "master.tsv" (.file "") d) ""
      (stat_insertEntry_self d "master.tsv" _ hno)
      (fun n hn => by
        obtain ⟨c, hc, hr⟩ := hall n hn
        exact ⟨hne n hn, c, by rw [hsame n (hne n hn)]; exact hc, hr⟩)
  refine ⟨d1, ?_, ?_, ?_⟩
  · simp only [MergeIndexFiles, hopen]
    exact hrun
  · have hfrag : ∀ (l : List String), (∀ n ∈ l, n ≠ "master.tsv") →
        l.flatMap (fragmentData (insertEntry "master.tsv" (.file "") d))
          = l.flatMap (fragmentData d) := by
      intro l
      induction l with
      | nil => intro _; rfl
      | cons r rs ih2 =>
        intro hl
        simp only [List.flatMap_cons]
        rw [ih2 (fun n hn => hl n (List.mem_cons_of_mem _ hn))]
        simp only [fragmentData, hsame r (hl r (List.mem_cons_self _ _))]
    simp only [masterContent, hmaster, hfrag _ hne]
    simp
  · intro n hn
    rw [hothers n hn, hsame n hn]

theorem scanTokens_ok : ∀ (ls : List (List Char)), (scanTokens ls).2 = false →
    ∀ l ∈ ls, (String.mk l).utf8ByteSize < maxScanTokenSize := by
  intro ls
  induction ls with
  | nil => intro _ l hl; simp at hl
  | cons x xs ih =>
    intro h l hl
    unfold scanTokens at h
    split_ifs at h with hx
    rcases List.mem_cons.mp hl with rfl | hl
    · exact Nat.not_le.mp hx
    · exact ih h l hl

theorem mergeFiles_returned (d d1 : Dir) (name : String) (masterFile : Option String)
    (h : mergeFiles d name masterFile = .returned d1) :
    ∃ c, stat d name = some (.file c) ∧ readable c := by
  unfold mergeFiles at h
  split at h
  · simp at h
  · simp at h
  · rename_i content hc
    refine ⟨content, hc, ?_⟩
    simp only at h
    split_ifs at h with h1 h2
    exact scanTokens_ok _ (by simpa using h2)

theorem mem_names_stat (d : Dir) (n : String) (h : n ∈ d.map Prod.fst) : stat d n ≠ none := by
  induction d with
  | nil => simp at h
  | cons e es ih =>
    obtain ⟨k, v⟩ := e
    by_cases hk : k = n
    · simp [stat, hk]
    · simp only [List.map_cons, List.mem_cons] at h
      rcases h with h | h
      · exact absurd h.symm hk
      · simp [stat, hk, ih h]

theorem mergeLoop_returned : ∀ (files : List String) (d d1 : Dir),
    (∀ n ∈ files, n ≠ "master.tsv") →
    mergeLoop (some "master.tsv") files d = .returned d1 →
    ∀ n ∈ files, n ≠ "master.tsv" ∧ ∃ c, stat d n = some (.file c) ∧ readable c := by
  intro files
  induction files with
  | nil => intro d d1 _ _ n hn; simp at hn
  | cons f rest ih =>
    intro d d1 hne h n hn
    have hf := hne f (List.mem_cons_self _ _)
    unfold mergeLoop at h
    split at h
    · rename_i d2 hstep
      obtain ⟨c, hc, hr⟩ := mergeFiles_returned d d2 f _ hstep
      rcases List.mem_cons.mp hn with rfl | hn
      · exact ⟨hf, c, hc, hr⟩
      · have hd2 := mergeFiles_readable d f "master.tsv" c hc hr hf
        rw [hstep] at hd2
        have hd2 : d2 = appendTo d "master.tsv" (concat (dataLines c)) := by
          injection hd2
        obtain ⟨h1, c1, h2, h3⟩ :=
          ih d2 d1 (fun x hx => hne x (List.mem_cons_of_mem _ hx)) h n hn
        refine ⟨h1, c1, ?_, h3⟩
        rw [← h2, hd2, stat_appendTo_ne d n "master.tsv" _ h1]
    · simp at h
    · simp at h

theorem MergeIndexFiles_returned (d d1 : Dir) (hno : stat d "master.tsv" = none)
    (h : MergeIndexFiles d = .returned d1) :
    ∀ n ∈ d.map Prod.fst, ∃ c, stat d n = some (.file c) ∧ readable c := by
  have hopen : openMaster d = (insertEntry "master.tsv" (.file "") d, some "master.tsv") := by
    simp [openMaster, hno]
  have hne : ∀ n ∈ d.map Prod.fst, n ≠ "master.tsv" := by
    intro n hn e
    exact mem_names_stat d n hn (e ▸ hno)
  simp only [MergeIndexFiles, hopen] at h
  intro n hn
  obtain ⟨h1, c, h2, h3⟩ := mergeLoop_returned _ _ _ hne h n hn
  exact ⟨c, by rw [← h2, stat_insertEntry_ne d "master.tsv" n _ h1], h3⟩

/-! ## Fan-out coordinator -/

theorem downloadFile_sent_le_one (url : String) (w : World) :
    (downloadFile url w).sent.length ≤ 1 := by
  cases hc : (downloadFile url w).crashed with
  | false => exact (downloadFile_sends_once url w hc).le
  | true =>
    rcases (downloadFile_crashes_iff url w).mp hc with h | ⟨h1, e, h2⟩
    · simp [downloadFile, h]
    · cases hf : fileName url <;> simp [downloadFile, hf, h1, h2]

theorem pick_sum (l : List Run) : ∀ (i : Nat) (r : Run) (rest : List Run),
    pick l i = some (r, rest) →
    (l.map fun x => x.sent.length).sum
      = r.sent.length + (rest.map fun x => x.sent.length).sum := by
  induction l with
  | nil => intro i r rest h; simp [pick] at h
  | cons x xs ih =>
    intro i r rest h
    cases i with
    | zero =>
      simp only [pick, Option.some.injEq, Prod.mk.injEq] at h
      obtain ⟨rfl, rfl⟩ := h
      simp
    | succ i =>
      simp only [pick, Option.map_eq_some'] at h
      obtain ⟨⟨r2, rest2⟩, hp, he⟩ := h
      simp only [Prod.mk.injEq] at he
      obtain ⟨rfl, rfl⟩ := he
      have := ih i r2 rest2 hp
      simp only [List.map_cons, List.sum_cons, this]
      omega

theorem step_invariant (s : Fanout) (a : Action) :
    (step s a).logged.length + (step s a).ch.length + pending (step s a)
        = s.logged.length + s.ch.length + pending s ∧
    (step s a).logged.length + (step s a).receives = s.logged.length + s.receives ∧
    (step s a).capacity = s.capacity := by
  cases a with
  | coordinator =>
    by_cases hc : s.crashed = true
    · simp [step, hc]
    · cases hu : s.unlaunched with
      | cons j rest =>
        obtain ⟨url, w⟩ := j
        simp only [step, hc, hu, pending]
        simp
        omega
      | nil =>
        by_cases hr : s.receives = 0
        · simp [step, hc, hu, hr]
        · cases hch : s.ch with
          | nil => simp [step, hc, hu, hr, hch]
          | cons o rest =>
            simp only [step, hc, hu, hr, hch, pending]
            simp
            omega
  | worker i =>
    by_cases hc : s.crashed = true
    · simp [step, hc]
    · cases hp : pick s.workers i with
      | none => simp [step, hc, hp]
      | some p =>
        obtain ⟨run, rest⟩ := p
        have hs := pick_sum s.workers i run rest hp
        by_cases hrc : run.crashed = true
        · simp [step, hc, hp, hrc, pending]
        · by_cases hroom : s.ch.length + run.sent.length ≤ s.capacity
          · simp only [step, hc, hp, hrc, hroom, pending]
            simp
            omega
          · simp [step, hc, hp, hrc, hroom]

theorem downloadFiles_invariant (jobs : List (String × World)) (schedule : List Action) :
    (downloadFiles jobs schedule).logged.length + (downloadFiles jobs schedule).ch.length
        + pending (downloadFiles jobs schedule)
      = (jobs.map fun p => (downloadFile p.1 p.2).sent.length).sum ∧
    (downloadFiles jobs schedule).logged.length + (downloadFiles jobs schedule).receives
      = jobs.length ∧
    (downloadFiles jobs schedule).capacity = jobs.length := by
  unfold downloadFiles
  induction schedule using List.reverseRecOn with
  | nil => simp [Fanout.start, pending]
  | append_singleton sched a ih =>
    rw [List.foldl_append, List.foldl_cons, List.foldl_nil]
    obtain ⟨h1, h2, h3⟩ := step_invariant (List.foldl step (Fanout.start jobs) sched) a
    obtain ⟨i1, i2, i3⟩ := ih
    exact ⟨h1.trans i1, h2.trans i2, h3.trans i3⟩

theorem sum_sent_le_length (jobs : List (String × World)) :
    (jobs.map fun p => (downloadFile p.1 p.2).sent.length).sum ≤ jobs.length := by
  induction jobs with
  | nil => simp
  | cons j js ih =>
    have := downloadFile_sent_le_one j.1 j.2
    simp only [List.map_cons, List.sum_cons, List.length_cons]
    omega

theorem worker_never_waits (jobs : List (String × World)) (schedule : List Action)
    (i : Nat) (run : Run) (rest : List Run)
    (h : pick (downloadFiles jobs schedule).workers i = some (run, rest)) :
    (downloadFiles jobs schedule).ch.length + run.sent.length
      ≤ (downloadFiles jobs schedule).capacity := by
  obtain ⟨h1, _, h3⟩ := downloadFiles_invariant jobs schedule
  have h4 := sum_sent_le_length jobs
  have h5 := pick_sum _ i run rest h
  simp only [pending] at h1
  omega

/-! ## The claims -/

/-- Claim C1 as stated fails on the code. The claim's current quarter is the
quarter the clock is in: in February 2021 that is quarter 1, and for the range
2020..2021 the claim names five endpoints, while the code returns six, the
endpoint of the second quarter of 2021 among them; in March 2021 the code
likewise returns the second quarter for the range 2021..2021. And a range of
more years than `make` grants a slice for ends in a panic, although its start
lies before its end. -/
theorem generateURLs_not_exact :
    calendarQuarter 2 = 1 ∧ calendarQuarter 3 = 1 ∧
    generateURLs ⟨2021, 2⟩ 2020 2021 ≠ some (expectedURLs 2021 1 2020 2021) ∧
    generateURLs ⟨2021, 2⟩ 2020 2021
      = some ["https://www.sec.gov/Archives/edgar/full-index/2020/QTR1/master.zip",
              "https://www.sec.gov/Archives/edgar/full-index/2020/QTR2/master.zip",
              "https://www.sec.gov/Archives/edgar/full-index/2020/QTR3/master.zip",
              "https://www.sec.gov/Archives/edgar/full-index/2020/QTR4/master.zip",
              "https://www.sec.gov/Archives/edgar/full-index/2021/QTR1/master.zip",
              "https://www.sec.gov/Archives/edgar/full-index/2021/QTR2/master.zip"] ∧
    (expectedURLs 2021 1 2020 2021).length = 5 ∧
    generateURLs ⟨2021, 3⟩ 2021 2021 ≠ some (expectedURLs 2021 1 2021 2021) ∧
    ((0 : Int) ≤ 2 ^ 45 ∧ generateURLs ⟨2021, 5⟩ 0 (2 ^ 45) = none) := by
  have h2 : currentQuarter 2 = 2 := by norm_num [currentQuarter, roundToEven, Rat.floor]
  have h3 : currentQuarter 3 = 2 := by norm_num [currentQuarter, roundToEven, Rat.floor]
  have h6 : generateURLs ⟨2021, 2⟩ 2020 2021
      = some ["https://www.sec.gov/Archives/edgar/full-index/2020/QTR1/master.zip",
              "https://www.sec.gov/Archives/edgar/full-index/2020/QTR2/master.zip",
              "https://www.sec.gov/Archives/edgar/full-index/2020/QTR3/master.zip",
              "https://www.sec.gov/Archives/edgar/full-index/2020/QTR4/master.zip",
              "https://www.sec.gov/Archives/edgar/full-index/2021/QTR1/master.zip",
              "https://www.sec.gov/Archives/edgar/full-index/2021/QTR2/master.zip"] := by
    simp only [generateURLs, h2]
    decide
  refine ⟨by decide, by decide, ?_, h6, by decide, ?_, by decide, ?_⟩
  · rw [h6]
    decide
  · simp only [generateURLs, h3]
    decide
  · have hn : wrap64 (wrap64 (2 ^ 45 - 0) + 1) = 2 ^ 45 + 1 := by decide
    simp only [generateURLs, generateURLsAt, createRange, hn]
    simp [maxAlloc]

/-- Claim C1 as amended. For a clock in any month but February and March, and
for `start ≤ stop` with fewer than `2 ^ 45` years between them, `generateURLs`
returns exactly the locators of every year of the range and every quarter
1..4, year ascending then quarter ascending, where the current year keeps only
the quarters up to the calendar quarter of the current month. -/
theorem generateURLs_calendar (now : Time) (start stop : Int)
    (hm1 : 1 ≤ now.Month) (hm12 : now.Month ≤ 12)
    (hfeb : now.Month ≠ 2) (hmar : now.Month ≠ 3)
    (hlo : MinInt64 ≤ start) (hhi : stop ≤ MaxInt64)
    (h : start ≤ stop) (hlen : stop - start < 2 ^ 45) :
    generateURLs now start stop
      = some (expectedURLs now.Year (calendarQuarter now.Month) start stop) := by
  have hq := currentQuarter_range now.Month hm1 hm12
  rw [← currentQuarter_eq_calendar now.Month hm1 hm12 hfeb hmar, generateURLs]
  refine generateURLsAt_eq _ _ start stop hlo hhi (by omega) hlen ?_ ?_
  · simp only [MinInt64]
    omega
  · simp only [MaxInt64]
    omega

/-- Claim C1 as amended, at the two inputs the specification names: 2021..2021
seen in May 2021 (second quarter) gives two endpoints, 2020..2021 seen in
January 2021 (first quarter) gives five. -/
theorem generateURLs_calendar_witness :
    generateURLs ⟨2021, 5⟩ 2021 2021
      = some ["https://www.sec.gov/Archives/edgar/full-index/2021/QTR1/master.zip",
              "https://www.sec.gov/Archives/edgar/full-index/2021/QTR2/master.zip"] ∧
    generateURLs ⟨2021, 1⟩ 2020 2021
      = some ["https://www.sec.gov/Archives/edgar/full-index/2020/QTR1/master.zip",
              "https://www.sec.gov/Archives/edgar/full-index/2020/QTR2/master.zip",
              "https://www.sec.gov/Archives/edgar/full-index/2020/QTR3/master.zip",
              "https://www.sec.gov/Archives/edgar/full-index/2020/QTR4/master.zip",
              "https://www.sec.gov/Archives/edgar/full-index/2021/QTR1/master.zip"] :=
  ⟨(generateURLs_calendar ⟨2021, 5⟩ 2021 2021 (by decide) (by decide) (by decide) (by decide)
      (by decide) (by decide) (by decide) (by decide)).trans (by decide),
   (generateURLs_calendar ⟨2021, 1⟩ 2020 2021 (by decide) (by decide) (by decide) (by decide)
      (by decide) (by decide) (by decide) (by decide)).trans (by decide)⟩

/-- Claim C2, evaluated on the code. In February the code computes quarter 2
while the calendar quarter is 1, so `generateURLs` emits the endpoint of the
second quarter of the current year before that quarter has begun. Over the
twelve months the computed quarter differs from the calendar quarter in
February and in March. -/
theorem currentQuarter_february :
    currentQuarter 2 = 2 ∧ calendarQuarter 2 = 1 ∧
    generateURLs ⟨2021, 2⟩ 2021 2021
      = some ["https://www.sec.gov/Archives/edgar/full-index/2021/QTR1/master.zip",
              "https://www.sec.gov/Archives/edgar/full-index/2021/QTR2/master.zip"] ∧
    (List.range' 1 12).map currentQuarter = [1, 2, 2, 2, 2, 2, 3, 3, 3, 4, 4, 4] ∧
    (List.range' 1 12).map calendarQuarter = [1, 1, 1, 2, 2, 2, 3, 3, 3, 4, 4, 4] := by
  have h2 : currentQuarter 2 = 2 := by norm_num [currentQuarter, roundToEven, Rat.floor]
  refine ⟨h2, by decide, ?_, ?_, by decide⟩
  · simp only [generateURLs, h2]
    decide
  · norm_num [List.range', currentQuarter, roundToEven, Rat.floor]

/-- Claim C3, evaluated on the code. A range whose start lies more than one
year after its end makes `createRange` ask for a slice of negative length, and
`generateURLs` panics; only a start one year after the end gives the empty
list. -/
theorem generateURLs_reversed_range (now : Time) :
    createRange 2022 2020 = none ∧ generateURLs now 2022 2020 = none ∧
    generateURLs now 2021 2020 = some [] := by
  have h1 : createRange 2022 2020 = none := by decide
  have h2 : createRange 2021 2020 = some [] := by decide
  refine ⟨h1, ?_, ?_⟩
  · simp [generateURLs, generateURLsAt, h1]
  · simp [generateURLs, generateURLsAt, h2, yearLoop]

/-- Claim C4. For a readable fragment and a master handle on another file,
`mergeFiles` returns after appending to the master file exactly the
fragment's lines after the eleventh, in order, each followed by one line feed.
Eleven header lines followed by the lines X and Y contribute `X\nY\n`; fewer
than eleven lines contribute nothing. -/
theorem mergeFiles_appends_data_lines (d : Dir) (name master content : String)
    (hfile : stat d name = some (.file content)) (hread : readable content)
    (hne : name ≠ master) :
    mergeFiles d name (some master)
      = .returned (appendTo d master (concat (dataLines content))) ∧
    (∀ P, stat d master = some (.file P) →
      stat (appendTo d master (concat (dataLines content))) master
        = some (.file (P ++ concat (dataLines content)))) ∧
    (∀ n, n ≠ master →
      stat (appendTo d master (concat (dataLines content))) n = stat d n) ∧
    (∀ hs : List String, hs.length = 11 → (∀ h ∈ hs, '\n' ∉ h.data) →
      content = concat (hs.map fun h => h ++ "\n") ++ "X\nY\n" →
      concat (dataLines content) = "X\nY\n") ∧
    ((fileLines content).length < 11 → concat (dataLines content) = "") := by
  refine ⟨mergeFiles_readable d name master content hfile hread hne,
    fun P hP => stat_appendTo_self d master _ P hP,
    fun n hn => stat_appendTo_ne d n master _ hn, ?_, ?_⟩
  · intro hs hlen hh hc
    have hs2 := scanTokens_readable (rawLines content.data) hread
    have hr : rawLines content.data = hs.map String.data ++ rawLines "X\nY\n".data := by
      rw [hc]
      exact rawLines_headers hs "X\nY\n" hh
    have hx : rawLines "X\nY\n".data = ["X".data, "Y".data] := by decide
    rw [hr, hx] at hs2
    simp only [dataLines, fileLines]
    rw [hr, hx, hs2]
    simp only [List.map_append]
    rw [List.drop_left' (by simp [hlen])]
    decide
  · intro hlt
    simp only [dataLines]
    rw [List.drop_eq_nil_of_le (by omega)]
    rfl

/-- Claim C4 at a fragment of eleven header lines and the record X, merged
into a master file that holds `P`. -/
theorem mergeFiles_appends_data_lines_witness :
    mergeFiles [("2021-QTR1.tsv", .file sampleFragment), ("master.tsv", .file "P\n")]
        "2021-QTR1.tsv" (some "master.tsv")
      = .returned
          [("2021-QTR1.tsv", .file sampleFragment), ("master.tsv", .file "P\nX\n")] :=
  (mergeFiles_appends_data_lines
      [("2021-QTR1.tsv", .file sampleFragment), ("master.tsv", .file "P\n")]
      "2021-QTR1.tsv" "master.tsv" sampleFragment (by decide) (by decide) (by decide)).1.trans
    (by decide)

/-- Claim C5. First part: on a directory whose listing has no `master.tsv` and
only readable files, `MergeIndexFiles` returns with `master.tsv` holding the
data lines of the listed files, in listing order, and every other entry as it
was. Second part: on any directory whose listing has no `master.tsv`, whenever
`MergeIndexFiles` returns that is the state it returns in. Third part: the loop
of `MergeIndexFiles`, entered with a master file that holds any prior content
`P` and any list of names of readable files other than `master.tsv`, leaves `P`
followed by the data lines of those files in order. No header line is
appended: `fragmentData` holds only lines after the eleventh. -/
theorem MergeIndexFiles_appends_in_order :
    (∀ d : Dir, stat d "master.tsv" = none →
      (∀ n ∈ d.map Prod.fst, ∃ c, stat d n = some (.file c) ∧ readable c) →
      ∃ d1, MergeIndexFiles d = .returned d1 ∧
        masterContent d1 = some (concat ((d.map Prod.fst).flatMap (fragmentData d))) ∧
        ∀ n, n ≠ "master.tsv" → stat d1 n = stat d n) ∧
    (∀ d d1 : Dir, stat d "master.tsv" = none → MergeIndexFiles d = .returned d1 →
      masterContent d1 = some (concat ((d.map Prod.fst).flatMap (fragmentData d))) ∧
      ∀ n, n ≠ "master.tsv" → stat d1 n = stat d n) ∧
    (∀ (d : Dir) (files : List String) (P : String), masterContent d = some P →
      (∀ n ∈ files, n ≠ "master.tsv" ∧ ∃ c, stat d n = some (.file c) ∧ readable c) →
      ∃ d1, mergeLoop (some "master.tsv") files d = .returned d1 ∧
        masterContent d1 = some (P ++ concat (files.flatMap (fragmentData d))) ∧
        ∀ n, n ≠ "master.tsv" → stat d1 n = stat d n) := by
  refine ⟨MergeIndexFiles_fresh, ?_, ?_⟩
  · intro d d1 hno hrun
    obtain ⟨d2, h1, h2, h3⟩ :=
      MergeIndexFiles_fresh d hno (MergeIndexFiles_returned d d1 hno hrun)
    rw [hrun] at h1
    injection h1 with h1
    subst h1
    exact ⟨h2, h3⟩
  intro d files P hP hall
  have hP1 : stat d "master.tsv" = some (.file P) := by
    unfold masterContent at hP
    split at hP
    · rename_i c hc
      rw [hc, Option.some.inj hP]
    · exact Option.noConfusion hP
  obtain ⟨d1, h1, h2, h3⟩ := mergeLoop_readable files d P hP1 hall
  exact ⟨d1, h1, by simp [masterContent, h2], h3⟩

/-- Claim C5 at a directory of two fragments. -/
theorem MergeIndexFiles_appends_in_order_witness :
    MergeIndexFiles
        [("2021-QTR1.tsv", .file sampleFragment),
         ("2021-QTR2.tsv", .file "1\n2\n3\n4\n5\n6\n7\n8\n9\n10\n11\nY\nZ\n")]
      = .returned
          [("2021-QTR1.tsv", .file sampleFragment),
           ("2021-QTR2.tsv", .file "1\n2\n3\n4\n5\n6\n7\n8\n9\n10\n11\nY\nZ\n"),
           ("master.tsv", .file "X\nY\nZ\n")] ∧
    masterContent
        [("2021-QTR1.tsv", .file sampleFragment),
         ("2021-QTR2.tsv", .file "1\n2\n3\n4\n5\n6\n7\n8\n9\n10\n11\nY\nZ\n"),
         ("master.tsv", .file "X\nY\nZ\n")]
      = some "X\nY\nZ\n" := by
  obtain ⟨d1, h1, h2, _⟩ := MergeIndexFiles_appends_in_order.1
    [("2021-QTR1.tsv", .file sampleFragment),
     ("2021-QTR2.tsv", .file "1\n2\n3\n4\n5\n6\n7\n8\n9\n10\n11\nY\nZ\n")]
    (by decide)
    (by
      intro n hn
      simp only [List.map_cons, List.map_nil, List.mem_cons, List.mem_singleton,
        List.not_mem_nil, or_false] at hn
      rcases hn with rfl | rfl
      · exact ⟨_, rfl, by decide⟩
      · exact ⟨_, rfl, by decide⟩)
  have e : MergeIndexFiles
        [("2021-QTR1.tsv", .file sampleFragment),
         ("2021-QTR2.tsv", .file "1\n2\n3\n4\n5\n6\n7\n8\n9\n10\n11\nY\nZ\n")]
      = .returned
          [("2021-QTR1.tsv", .file sampleFragment),
           ("2021-QTR2.tsv", .file "1\n2\n3\n4\n5\n6\n7\n8\n9\n10\n11\nY\nZ\n"),
           ("master.tsv", .file "X\nY\nZ\n")] := by decide
  rw [e] at h1
  injection h1 with h1
  subst h1
  exact ⟨e, h2.trans (by decide)⟩

/-- Claim C6, evaluated on the code. A first merge of a directory with one
fragment leaves the record X once in `master.tsv`; a second merge of the
directory as the first left it appends the record again, so X then stands
twice. -/
theorem MergeIndexFiles_twice_duplicates :
    MergeIndexFiles [("2021-QTR1.tsv", .file sampleFragment)]
      = .returned [("2021-QTR1.tsv", .file sampleFragment), ("master.tsv", .file "X\n")] ∧
    MergeIndexFiles [("2021-QTR1.tsv", .file sampleFragment), ("master.tsv", .file "X\n")]
      = .returned
          [("2021-QTR1.tsv", .file sampleFragment), ("master.tsv", .file "X\nX\n")] ∧
    (fileLines "X\n").count "X" = 1 ∧ (fileLines "X\nX\n").count "X" = 2 := by
  refine ⟨by decide, by decide, by decide, by decide⟩

/-- Claim C7, evaluated on the code. When `http.Get` fails and returns no
response, the worker for a generated locator panics on `resp.Status` and puts
nothing on the channel. -/
theorem downloadFile_transport_error (y : Int) (e : Error)
    (newReader : String → Except Error (List ZipFile)) (write : Nat → Option Error) :
    downloadFile (locator y 1) ⟨none, .failed none e, newReader, write⟩
      = ⟨[], true, some ""⟩ := by
  simp [downloadFile, fileName_locator y 1 (by decide)]

/-- Claim C8. For a response with status 200 whose body opens as an archive
with readable `master.idx` entries, the worker writes to its local file
exactly the bytes of the entries named `master.idx` and reports the status
without an error: the content of the one such entry when there is one, and
nothing when there is none. -/
theorem downloadFile_writes_master_idx (url : String) (w : World) (resp : Response)
    (body : String) (files : List ZipFile)
    (hname : (fileName url).isSome = true)
    (hcreate : w.create = none)
    (hget : w.get = .ok resp)
    (hstatus : resp.StatusCode = 200)
    (hbody : resp.Body = .ok body)
    (hzip : w.newReader body = .ok files)
    (hread : ∀ zf ∈ files, zf.Name = "master.idx" → ∃ b, zf.content = .ok b)
    (hwrite : ∀ k, w.write k = none) :
    downloadFile url w = ⟨[⟨url, resp.Status, none⟩], false, some (masterIdxBytes files)⟩ ∧
    (∀ (before after : List ZipFile) (c : String),
      files = before ++ ⟨"master.idx", .ok c⟩ :: after →
      (∀ zf ∈ before, zf.Name ≠ "master.idx") → (∀ zf ∈ after, zf.Name ≠ "master.idx") →
      masterIdxBytes files = c) ∧
    ((∀ zf ∈ files, zf.Name ≠ "master.idx") → masterIdxBytes files = "") := by
  refine ⟨?_, ?_, masterIdxBytes_none files⟩
  · obtain ⟨n, hn⟩ := Option.isSome_iff_exists.mp hname
    simp [downloadFile, hn, hcreate, hget, hstatus, hbody, hzip,
      writeEntries_ok url resp.Status w hwrite files 0 "" hread]
  · intro before after c hf hb ha
    rw [hf, masterIdxBytes_append, masterIdxBytes_none before hb]
    simp [masterIdxBytes, masterIdxBytes_none after ha]

/-- Claim C8 at an archive that holds `master.idx` with the content
`HEADER\nA\nB\n` next to another entry. -/
theorem downloadFile_writes_master_idx_witness :
    downloadFile "https://www.sec.gov/Archives/edgar/full-index/2021/QTR1/master.zip"
        ⟨none, .ok ⟨"200 OK", 200, .ok "PK"⟩,
          fun _ => .ok [⟨"form.idx", .ok "other"⟩, ⟨"master.idx", .ok "HEADER\nA\nB\n"⟩],
          fun _ => none⟩
      = ⟨[⟨"https://www.sec.gov/Archives/edgar/full-index/2021/QTR1/master.zip", "200 OK",
            none⟩], false, some "HEADER\nA\nB\n"⟩ :=
  (downloadFile_writes_master_idx
      "https://www.sec.gov/Archives/edgar/full-index/2021/QTR1/master.zip"
      ⟨none, .ok ⟨"200 OK", 200, .ok "PK"⟩,
        fun _ => .ok [⟨"form.idx", .ok "other"⟩, ⟨"master.idx", .ok "HEADER\nA\nB\n"⟩],
        fun _ => none⟩
      ⟨"200 OK", 200, .ok "PK"⟩ "PK"
      [⟨"form.idx", .ok "other"⟩, ⟨"master.idx", .ok "HEADER\nA\nB\n"⟩]
      (by decide) rfl rfl rfl rfl rfl
      (by
        intro zf hzf _
        simp only [List.mem_cons, List.mem_singleton, List.not_mem_nil, or_false] at hzf
        rcases hzf with rfl | rfl
        · exact ⟨_, rfl⟩
        · exact ⟨_, rfl⟩)
      (fun _ => rfl)).1.trans (by decide)

/-- Claim C9. Every locator in a list `generateURLs` returns is the locator of
a year `y` and a quarter `q` in 1..4, `downloadFile` derives from it the name
`decimal(y)-QTRq.tsv`, and the names derived from the whole list are pairwise
distinct; and for `start ≤ stop` with fewer than `2 ^ 45` years between them
`generateURLs` does return such a list. -/
theorem fileNames_distinct (cy cq start stop : Int) :
    (∀ urls, generateURLsAt cy cq start stop = some urls →
      (∀ u ∈ urls, ∃ (y : Int) (q : Nat), q ∈ [1, 2, 3, 4] ∧ u = locator y q ∧
        fileName u = some (Itoa y ++ "-QTR" ++ Itoa q ++ ".tsv")) ∧
      (urls.map fileName).Nodup) ∧
    (start ≤ stop → MinInt64 ≤ start → stop ≤ MaxInt64 → stop - start < 2 ^ 45 →
      ∃ urls, generateURLsAt cy cq start stop = some urls ∧
        (∀ u ∈ urls, ∃ (y : Int) (q : Nat), q ∈ [1, 2, 3, 4] ∧ u = locator y q ∧
          fileName u = some (Itoa y ++ "-QTR" ++ Itoa q ++ ".tsv")) ∧
        (urls.map fileName).Nodup) := by
  have hall : ∀ urls, generateURLsAt cy cq start stop = some urls →
      (∀ u ∈ urls, ∃ (y : Int) (q : Nat), q ∈ [1, 2, 3, 4] ∧ u = locator y q ∧
        fileName u = some (Itoa y ++ "-QTR" ++ Itoa q ++ ".tsv")) ∧
      (urls.map fileName).Nodup := by
    intro urls hu
    obtain ⟨years, hy, rfl⟩ := generateURLsAt_some cy cq start stop urls hu
    exact locatorsOf_names cy _ years hy
  refine ⟨hall, ?_⟩
  intro h hlo hhi hlen
  have hc := createRange_eq start stop hlo hhi (by omega) hlen
  have hsome : generateURLsAt cy cq start stop
      = some (yearLoop cy cq (yearsOf start stop) []) := by
    simp [generateURLsAt, hc]
  exact ⟨_, hsome, hall _ hsome⟩

/-- Claim C9 at the range 2020..2021 seen in the first quarter of 2021: the
five locators give five different file names. -/
theorem fileNames_distinct_witness :
    generateURLsAt 2021 1 2020 2021 = some (expectedURLs 2021 1 2020 2021) ∧
    (expectedURLs 2021 1 2020 2021).map fileName
      = [some "2020-QTR1.tsv", some "2020-QTR2.tsv", some "2020-QTR3.tsv",
          some "2020-QTR4.tsv", some "2021-QTR1.tsv"] ∧
    ((expectedURLs 2021 1 2020 2021).map fileName).Nodup := by
  obtain ⟨urls, h1, _, h3⟩ :=
    (fileNames_distinct 2021 1 2020 2021).2 (by decide) (by decide) (by decide) (by decide)
  have h4 : generateURLsAt 2021 1 2020 2021 = some (expectedURLs 2021 1 2020 2021) := by
    decide
  rw [h4] at h1
  injection h1 with h1
  subst h1
  exact ⟨h4, by decide, h3⟩

/-- Claim C10, evaluated on the code. Of fifty workers one meets a failing
`http.Get` and panics before it sends, so under every schedule the coordinator
logs at most forty-nine outcomes and its second loop never comes to its end;
under the schedule that launches this worker and lets it run, the panic ends
the process with nothing logged. -/
theorem downloadFiles_loses_outcome (schedule : List Action) :
    fiftyJobs.length = 50 ∧
    (downloadFiles fiftyJobs schedule).logged.length ≤ 49 ∧
    1 ≤ (downloadFiles fiftyJobs schedule).receives ∧
    (downloadFiles fiftyJobs [.coordinator, .worker 0]).crashed = true ∧
    (downloadFiles fiftyJobs [.coordinator, .worker 0]).logged = [] := by
  have hlen : fiftyJobs.length = 50 := by decide
  have hsum : (fiftyJobs.map fun p => (downloadFile p.1 p.2).sent.length).sum = 49 := by
    decide
  obtain ⟨h1, h2, _⟩ := downloadFiles_invariant fiftyJobs schedule
  rw [hsum] at h1
  rw [hlen] at h2
  exact ⟨hlen, by omega, by omega, by decide, by decide⟩

end Downloader
